import Mathlib

/-!
Verification of the stimulus-timing-to-scan alignment and per-run decoding
pipeline of the `neu350/fMRI` notebook
(`src/keys/03.1-modules-vs-distributed-processing.ipynb`).

The notebook's core functions are shallowly embedded here:

* `label2TR` — converts a stimulus timing array to a per-TR label vector.
  The Python source reads row 0 (condition labels) and row 2 (onset times in
  seconds) of the timing array `stim_label`; a column of that array is one
  event, so the array is embedded as a list of (label, onset) pairs.
  Rational numbers stand in for the floating-point labels and times.
* `shift_timing` — modelled from the spec (its definition lives in the
  course's `utils` module, which is not part of this repository's sources).
* `normalize` / `decode` — run-wise z-scoring and leave-one-run-out
  cross-validated decoding.  The sklearn collaborators (`StandardScaler`,
  `PredefinedSplit`, the classifier) are embedded by their documented
  behaviour; the classifier is kept abstract as a state type with `fit` and
  `score` operations.

Python-specific behaviour is embedded explicitly: `int()` truncation toward
zero (`pyInt`), and negative-index item assignment on arrays, which succeeds
for indices in `[-len, len)` and raises otherwise (`pySet`, returning
`Option`).
-/

namespace FMRI

/-- Python `int()` conversion of a rational: truncation toward zero. -/
def pyInt (q : ℚ) : ℤ :=
  if 0 ≤ q then ⌊q⌋ else -⌊-q⌋

/-- Resolution of a (possibly negative) Python index against a sequence of
length `len`: indices in `[0, len)` are used as is, indices in `[-len, 0)`
count from the end, anything else raises `IndexError` (`none`). -/
def pyIdx (len : ℕ) (i : ℤ) : Option ℕ :=
  if 0 ≤ i ∧ i < (len : ℤ) then some i.toNat
  else if -(len : ℤ) ≤ i ∧ i < 0 then some (i + len).toNat
  else none

/-- Python item assignment `l[i] = v` with negative-index semantics;
`none` models an uncaught `IndexError`. -/
def pySet {α : Type} (l : List α) (i : ℤ) (v : α) : Option (List α) :=
  (pyIdx l.length i).map fun j => l.set j v

/-- Position of event `(run, i)` in the concatenated timing file:
`time_idx = run * events_run + i` in the source. -/
def timeIdx (events_run : ℕ) (e : ℕ × ℕ) : ℕ :=
  e.1 * events_run + e.2

/-- The TR index the source computes for event `e`:
`TR_idx = int(time / TR) + run * (TRs_run - 1)`.  The subtraction is Python
integer arithmetic, hence computed in `ℤ`. -/
def trIdx (stim : List (ℚ × ℚ)) (TR : ℚ) (TRs_run events_run : ℕ) (e : ℕ × ℕ) : ℤ :=
  pyInt ((stim.getD (timeIdx events_run e) (0, 0)).2 / TR) + (e.1 : ℤ) * ((TRs_run : ℤ) - 1)

/-- Body of the source's inner loop for one event: look up the time stamp,
compute the TR index and assign the condition label there.  Division of a
numpy float by `TR = 0` produces an infinity whose `int()` conversion raises,
so processing any event with `TR = 0` fails (`none`). -/
def stepEvent (stim : List (ℚ × ℚ)) (TR : ℚ) (TRs_run events_run : ℕ)
    (acc : Option (List ℚ)) (e : ℕ × ℕ) : Option (List ℚ) :=
  acc.bind fun out =>
    if TR = 0 then none
    else pySet out (trIdx stim TR TRs_run events_run e)
      (stim.getD (timeIdx events_run e) (0, 0)).1

/-- The run-major sequence of `(run, i)` pairs visited by the source's two
nested loops `for run in range(0, num_runs): for i in range(events_run):`. -/
def eventSeq (num_runs events_run : ℕ) : List (ℕ × ℕ) :=
  (List.range num_runs).flatMap fun run => (List.range events_run).map fun i => (run, i)

/-- Embedding of the notebook's `label2TR`. The output array is preset with
`np.zeros((TRs_run * 3, 1))` — the run count is hard-coded as `3` in the
source — and `events_run = int(events / num_runs)` (a `ZeroDivisionError`,
hence `none`, when `num_runs = 0`). -/
def label2TR (stim : List (ℚ × ℚ)) (num_runs : ℕ) (TR : ℚ) (TRs_run : ℕ) :
    Option (List ℚ) :=
  if num_runs = 0 then none
  else
    (eventSeq num_runs (stim.length / num_runs)).foldl
      (stepEvent stim TR TRs_run (stim.length / num_runs))
      (some (List.replicate (TRs_run * 3) 0))

/-- Modelled from the spec: `shift_timing` is imported by the notebook from the
course's `utils` module, which is not among this repository's source files.
Per the spec it returns a vector of the same length with
`output[i] = input[i - shift]` for `i >= shift` and `output[i] = 0` for
`i < shift`; entries shifted past the end are dropped (no wraparound). -/
def shift_timing (label_TR : List ℚ) (shift : ℕ) : List ℚ :=
  (List.replicate shift 0 ++ label_TR).take label_TR.length

/-- Number of scanning runs of the VDC dataset.  The notebook imports this
module-level constant from the course `utils`; the notebook's recorded output
prints `number of runs = 3`.  The notebook's `normalize` reads it as a global
instead of taking a run count argument. -/
def vdc_n_runs : ℕ := 3

/-- Integer square root: the greatest `k ≤ n` with `k * k ≤ n`. -/
def natSqrt (n : ℕ) : ℕ :=
  Nat.findGreatest (fun k => k * k ≤ n) n

/-- Square root on `ℚ`, taken via integer square roots of the numerator and
denominator of the reduced fraction.  On rationals that are squares of
rationals (in lowest terms both numerator and denominator are then perfect
squares) this is the exact nonnegative square root; every standard deviation
evaluated concretely in this development is of that form. -/
def ratSqrt (q : ℚ) : ℚ :=
  (natSqrt q.num.toNat : ℚ) / (natSqrt q.den : ℚ)

/-- Per-feature mean over a list of sample rows, as computed by sklearn's
`StandardScaler.fit` for column `j`. -/
def colMean (rows : List (List ℚ)) (j : ℕ) : ℚ :=
  ((rows.map fun x => x.getD j 0).sum) / rows.length

/-- Per-feature (biased, `ddof = 0`) variance of column `j`, as computed by
`StandardScaler.fit`. -/
def colVar (rows : List (List ℚ)) (j : ℕ) : ℚ :=
  ((rows.map fun x => (x.getD j 0 - colMean rows j) ^ 2).sum) / rows.length

/-- The scale `StandardScaler` divides by: the standard deviation, with zeros
replaced by `1` (sklearn's `_handle_zeros_in_scale`). -/
def colScale (rows : List (List ℚ)) (j : ℕ) : ℚ :=
  if ratSqrt (colVar rows j) = 0 then 1 else ratSqrt (colVar rows j)

/-- One row of `StandardScaler.transform`: z-score entry `j` with the fitted
mean and scale of column `j` of `rows`. -/
def zrow (rows : List (List ℚ)) (x : List ℚ) : List ℚ :=
  (List.range x.length).map fun j => (x.getD j 0 - colMean rows j) / colScale rows j

/-- sklearn's `StandardScaler().fit_transform` on a matrix of sample rows. -/
def fitTransform (rows : List (List ℚ)) : List (List ℚ) :=
  rows.map (zrow rows)

/-- Boolean-mask row selection `bold_data_[run_ids == r, :]`: the rows whose
parallel run identifier equals `r`, in their original relative order. -/
def selectRows (X : List (List ℚ)) (ids : List ℕ) (r : ℕ) : List (List ℚ) :=
  ((X.zip ids).filter fun p => p.2 = r).map Prod.fst

/-- Embedding of the notebook's `normalize`: for each `r` in
`range(vdc_n_runs)` apply a fresh `StandardScaler().fit_transform` to the
rows with `run_ids == r`, then `np.vstack` the per-run blocks in run order.
`fit_transform` on an empty selection raises a `ValueError` (`none`). -/
def normalize (bold_data : List (List ℚ)) (run_ids : List ℕ) :
    Option (List (List ℚ)) :=
  (List.range vdc_n_runs).foldl
    (fun acc r => acc.bind fun d =>
      if selectRows bold_data run_ids r = [] then none
      else some (d ++ fitTransform (selectRows bold_data run_ids r)))
    (some [])

/-- Abstract linear classifier in the sense of the spec's §9: a mutable
object with `fit(features, labels)` (returning its new fitted state) and
`score(features, labels) -> accuracy`.  The notebook instantiates it with
`sklearn.svm.LinearSVC`. -/
structure Classifier (σ : Type) where
  fit : σ → List (List ℚ) → List ℚ → σ
  score : σ → List (List ℚ) → List ℚ → ℚ

/-- Largest fold identifier occurring in `cv_ids` (`0` for the empty list). -/
def foldsMax (ids : List ℕ) : ℕ :=
  ids.foldr max 0

/-- The distinct fold values present in `cv_ids` in ascending order — the
order in which sklearn's `PredefinedSplit(cv_ids).split()` yields its
train/test splits (`numpy.unique` sorts ascending). -/
def uniqueFolds (ids : List ℕ) : List ℕ :=
  (List.range (foldsMax ids + 1)).filter fun f => f ∈ ids

/-- Test row indices of fold `f`: the positions whose fold id equals `f`. -/
def testIdx (ids : List ℕ) (f : ℕ) : List ℕ :=
  (List.range ids.length).filter fun j => ids.getD j 0 = f

/-- Training row indices of fold `f`: the positions whose fold id differs
from `f`. -/
def trainIdx (ids : List ℕ) (f : ℕ) : List ℕ :=
  (List.range ids.length).filter fun j => ids.getD j 0 ≠ f

/-- Fancy-indexing `X[index_list]` on the rows of a matrix. -/
def rowsAt (X : List (List ℚ)) (idx : List ℕ) : List (List ℚ) :=
  idx.map fun j => X.getD j []

/-- Fancy-indexing `y[index_list]` on a vector. -/
def valsAt (y : List ℚ) (idx : List ℕ) : List ℚ :=
  idx.map fun j => y.getD j 0

/-- One iteration of the notebook's `decode` loop: split rows by the current
fold, call `model.fit` on the training split (mutating the single shared
model object, i.e. producing its next state) and append
`model.score(X_test, y_test)` to the score list. -/
def decodeStep {σ : Type} (X : List (List ℚ)) (y : List ℚ) (ids : List ℕ)
    (M : Classifier σ) (acc : σ × List ℚ) (f : ℕ) : σ × List ℚ :=
  let s1 := M.fit acc.1 (rowsAt X (trainIdx ids f)) (valsAt y (trainIdx ids f))
  (s1, acc.2 ++ [M.score s1 (rowsAt X (testIdx ids f)) (valsAt y (testIdx ids f))])

/-- Embedding of the notebook's `decode`.  The source appends the same
`model` object to `models` on every iteration (`models.append(model)`), so
when the function returns, every element of `models` is one and the same
classifier instance in the state produced by the final fold's fit; the
returned model list is therefore `folds.length` copies of the final state. -/
def decode {σ : Type} (X : List (List ℚ)) (y : List ℚ) (cv_ids : List ℕ)
    (M : Classifier σ) (s0 : σ) : List σ × List ℚ :=
  let folds := uniqueFolds cv_ids
  let r := folds.foldl (decodeStep X y cv_ids M) (s0, [])
  (List.replicate folds.length r.1, r.2)

/-- Test classifier whose state records exactly the feature matrix and label
vector it was last fitted on (its `fit` discards previous state, as
sklearn's non-warm-start `fit` does). -/
def recModel : Classifier (List (List ℚ) × List ℚ) :=
  ⟨fun _ A b => (A, b), fun _ _ _ => 0⟩

/-- Run identifier vector of an input whose rows arrive grouped by ascending
run: first all of run 0's rows, then run 1's, then run 2's. -/
def groupedIds (B0 B1 B2 : List (List ℚ)) : List ℕ :=
  List.replicate B0.length 0 ++ (List.replicate B1.length 1 ++ List.replicate B2.length 2)

/-! ### Library lemmas about the Python-semantics helpers -/

lemma pyIdx_lt {len : ℕ} {i : ℤ} {p : ℕ} (h : pyIdx len i = some p) : p < len := by
  unfold pyIdx at h
  split at h
  · next hc =>
    cases h
    omega
  · split at h
    · next hc =>
      cases h
      omega
    · cases h

lemma pyIdx_of_nonneg {len : ℕ} {i : ℤ} (h0 : 0 ≤ i) (h1 : i < (len : ℤ)) :
    pyIdx len i = some i.toNat := by
  unfold pyIdx
  rw [if_pos ⟨h0, h1⟩]

lemma getD_replicate {n p : ℕ} {a : α} : (List.replicate n a).getD p a = a := by
  rw [List.getD_eq_getElem?_getD, List.getElem?_replicate]
  split <;> rfl

lemma foldl_stepEvent_none (stim : List (ℚ × ℚ)) (TR : ℚ) (TRs_run events_run : ℕ)
    (L : List (ℕ × ℕ)) :
    L.foldl (stepEvent stim TR TRs_run events_run) none = none := by
  induction L with
  | nil => rfl
  | cons e L ih => simpa [stepEvent] using ih

lemma foldl_stepEvent_length {stim : List (ℚ × ℚ)} {TR : ℚ}
    {TRs_run events_run : ℕ} {L : List (ℕ × ℕ)} :
    ∀ {init out : List ℚ},
      L.foldl (stepEvent stim TR TRs_run events_run) (some init) = some out →
      out.length = init.length := by
  induction L with
  | nil =>
    intro init out h
    cases h
    rfl
  | cons e L ih =>
    intro init out h
    rw [List.foldl_cons] at h
    rcases h1 : stepEvent stim TR TRs_run events_run (some init) e with _ | init1
    · rw [h1, foldl_stepEvent_none] at h
      cases h
    · rw [h1] at h
      have hlen1 : init1.length = init.length := by
        unfold stepEvent pySet at h1
        simp only [Option.some_bind] at h1
        split at h1
        · cases h1
        · rcases h2 : pyIdx init.length (trIdx stim TR TRs_run events_run e) with _ | j
          · rw [h2] at h1
            cases h1
          · rw [h2] at h1
            cases h1
            exact List.length_set ..
      rw [← hlen1]
      exact ih h

/-- Pointwise characterization of the `label2TR` accumulation loop: after a
successful pass over `L`, position `p` holds the label of the latest event of
`L` whose (Python-resolved) target index is `p`, or its initial value if no
event of `L` writes there.  Stated as a pointwise fold. -/
lemma foldl_stepEvent_getD {stim : List (ℚ × ℚ)} {TR : ℚ}
    {TRs_run events_run : ℕ} {L : List (ℕ × ℕ)} :
    ∀ {init out : List ℚ},
      L.foldl (stepEvent stim TR TRs_run events_run) (some init) = some out →
      ∀ p : ℕ, out.getD p 0 =
        L.foldl
          (fun cur e =>
            if pyIdx init.length (trIdx stim TR TRs_run events_run e) = some p then
              (stim.getD (timeIdx events_run e) (0, 0)).1
            else cur)
          (init.getD p 0) := by
  induction L with
  | nil =>
    intro init out h p
    cases h
    rfl
  | cons e L ih =>
    intro init out h p
    rw [List.foldl_cons] at h
    rcases h1 : stepEvent stim TR TRs_run events_run (some init) e with _ | init1
    · rw [h1, foldl_stepEvent_none] at h
      cases h
    · rw [h1] at h
      unfold stepEvent pySet at h1
      simp only [Option.some_bind] at h1
      split at h1
      · cases h1
      · rcases h2 : pyIdx init.length (trIdx stim TR TRs_run events_run e) with _ | j
        · rw [h2] at h1
          cases h1
        · rw [h2] at h1
          cases h1
          have hlen1 : (init.set j (stim.getD (timeIdx events_run e) (0, 0)).1).length
              = init.length := List.length_set ..
          have := ih h p
          rw [List.foldl_cons]
          rw [this, hlen1, h2]
          by_cases hj : j = p
          · subst hj
            rw [if_pos rfl]
            have hjlt : j < init.length := pyIdx_lt h2
            rw [List.getD_eq_getElem?_getD, List.getElem?_set_self (by omega),
              Option.getD_some]
          · rw [if_neg (by simpa using hj)]
            rw [List.getD_eq_getElem?_getD, List.getElem?_set_ne hj,
              ← List.getD_eq_getElem?_getD]

/-- A fold of the shape "overwrite when the predicate holds" ends at its
initial value when no element satisfies the predicate. -/
lemma foldl_overwrite_nil {α β : Type} (P : α → Prop) [DecidablePred P]
    (g : α → β) (L : List α) (b : β) (h : L.filter (fun a => P a) = []) :
    L.foldl (fun cur a => if P a then g a else cur) b = b := by
  induction L generalizing b with
  | nil => rfl
  | cons x L ih =>
    rw [List.filter_cons] at h
    split at h
    · cases h
    · next hx =>
      rw [List.foldl_cons, if_neg (by simpa using hx)]
      exact ih b h

/-- A fold of the shape "overwrite when the predicate holds" ends at the
image of the last element satisfying the predicate. -/
lemma foldl_overwrite_getLast {α β : Type} (P : α → Prop) [DecidablePred P]
    (g : α → β) (L : List α) (b : β) (x : α)
    (h : (L.filter (fun a => P a)).getLast? = some x) :
    L.foldl (fun cur a => if P a then g a else cur) b = g x := by
  induction L using List.reverseRecOn generalizing b with
  | nil => cases h
  | append_singleton L a ih =>
    rw [List.filter_append] at h
    rw [List.foldl_append, List.foldl_cons, List.foldl_nil]
    by_cases ha : P a
    · rw [if_pos ha]
      have : List.filter (fun a => decide (P a)) [a] = [a] := by
        simp [List.filter_cons, ha]
      rw [this, List.getLast?_concat] at h
      cases h
      rfl
    · rw [if_neg ha]
      have : List.filter (fun a => decide (P a)) [a] = [] := by
        simp [List.filter_cons, ha]
      rw [this, List.append_nil] at h
      exact ih b h

/-- In a list strictly sorted by `f`, an element that is an upper bound for
`f` over the list is the last element. -/
lemma getLast?_eq_of_max {α : Type} {f : α → ℕ} :
    ∀ {l : List α}, l.Pairwise (fun a b => f a < f b) →
      ∀ {x : α}, x ∈ l → (∀ y ∈ l, f y ≤ f x) → l.getLast? = some x := by
  intro l
  induction l with
  | nil =>
    intro _ x hx
    cases hx
  | cons a t ih =>
    intro hp x hx hmax
    have hp' := List.pairwise_cons.mp hp
    rcases t with _ | ⟨b, t'⟩
    · rcases List.mem_cons.mp hx with rfl | hx'
      · rfl
      · cases hx'
    · rw [List.getLast?_cons_cons]
      rcases List.mem_cons.mp hx with rfl | hx'
      · exfalso
        have hab : f x < f b := hp'.1 b (List.mem_cons_self ..)
        have hba : f b ≤ f x := hmax b (List.mem_cons_of_mem _ (List.mem_cons_self ..))
        omega
      · exact ih hp'.2 hx' fun y hy => hmax y (List.mem_cons_of_mem _ hy)

/-! ### Structure of the event traversal -/

lemma mem_eventSeq {nr er : ℕ} {e : ℕ × ℕ} :
    e ∈ eventSeq nr er ↔ e.1 < nr ∧ e.2 < er := by
  unfold eventSeq
  rw [List.mem_flatMap]
  constructor
  · rintro ⟨run, hrun, he⟩
    rcases List.mem_map.mp he with ⟨i, hi, rfl⟩
    exact ⟨List.mem_range.mp hrun, List.mem_range.mp hi⟩
  · rintro ⟨h1, h2⟩
    exact ⟨e.1, List.mem_range.mpr h1, List.mem_map.mpr ⟨e.2, List.mem_range.mpr h2, rfl⟩⟩

lemma timeIdx_lt_of_mem {nr er : ℕ} {e : ℕ × ℕ} (h : e ∈ eventSeq nr er) :
    timeIdx er e < nr * er := by
  rcases mem_eventSeq.mp h with ⟨h1, h2⟩
  unfold timeIdx
  calc e.1 * er + e.2 < e.1 * er + er := by omega
  _ = (e.1 + 1) * er := by ring
  _ ≤ nr * er := Nat.mul_le_mul_right er h1

/-- Events are traversed in strictly increasing order of their position in
the concatenated timing file. -/
lemma eventSeq_pairwise (nr er : ℕ) :
    (eventSeq nr er).Pairwise fun a b => timeIdx er a < timeIdx er b := by
  unfold eventSeq
  rw [List.pairwise_flatMap]
  constructor
  · intro run _
    rw [List.pairwise_map]
    exact (List.pairwise_lt_range er).imp fun h => by
      unfold timeIdx
      simpa using h
  · have : (List.range nr).Pairwise (· < ·) := List.pairwise_lt_range nr
    refine this.imp_of_mem ?_
    intro r1 r2 hr1 hr2 hlt x hx y hy
    rcases List.mem_map.mp hx with ⟨i, hi, rfl⟩
    rcases List.mem_map.mp hy with ⟨j, hj, rfl⟩
    have hi' := List.mem_range.mp hi
    have hj' := List.mem_range.mp hj
    unfold timeIdx
    simp only
    calc r1 * er + i < r1 * er + er := by omega
    _ = (r1 + 1) * er := by ring
    _ ≤ r2 * er := Nat.mul_le_mul_right er hlt
    _ ≤ r2 * er + j := by omega

/-- Pointwise value of a successful `label2TR` call: entry `p` of the output
is given by replaying, in traversal order, all events whose resolved write
index is `p` over the initial value `0`. -/
lemma label2TR_getD {stim : List (ℚ × ℚ)} {nr : ℕ} {TR : ℚ} {N : ℕ}
    {out : List ℚ} (h : label2TR stim nr TR N = some out) (p : ℕ) :
    out.getD p 0 =
      (eventSeq nr (stim.length / nr)).foldl
        (fun cur e =>
          if pyIdx (N * 3) (trIdx stim TR N (stim.length / nr) e) = some p then
            (stim.getD (timeIdx (stim.length / nr) e) (0, 0)).1
          else cur) 0 := by
  unfold label2TR at h
  split at h
  · cases h
  · have hh := foldl_stepEvent_getD h p
    rw [List.length_replicate, getD_replicate] at hh
    exact hh

lemma foldl_stepEvent_isSome {stim : List (ℚ × ℚ)} {TR : ℚ}
    {TRs_run events_run : ℕ} :
    ∀ {L : List (ℕ × ℕ)} {init : List ℚ},
      (L.foldl (stepEvent stim TR TRs_run events_run) (some init)).isSome ↔
        ∀ e ∈ L, TR ≠ 0 ∧
          (pyIdx init.length (trIdx stim TR TRs_run events_run e)).isSome := by
  intro L
  induction L with
  | nil => simp
  | cons e L ih =>
    intro init
    rw [List.foldl_cons]
    constructor
    · intro hs
      rcases h1 : stepEvent stim TR TRs_run events_run (some init) e with _ | init1
      · rw [h1, foldl_stepEvent_none] at hs
        cases hs
      · rw [h1] at hs
        unfold stepEvent pySet at h1
        simp only [Option.some_bind] at h1
        split at h1
        · cases h1
        · next hTR =>
          rcases h2 : pyIdx init.length (trIdx stim TR TRs_run events_run e) with _ | j
          · rw [h2] at h1
            cases h1
          · rw [h2] at h1
            cases h1
            intro e' he'
            rcases List.mem_cons.mp he' with rfl | he''
            · exact ⟨hTR, by rw [h2]; rfl⟩
            · have := ih.mp hs e' he''
              rwa [List.length_set] at this
    · intro H
      rcases H e (List.mem_cons_self ..) with ⟨hTR, hidx⟩
      rcases h2 : pyIdx init.length (trIdx stim TR TRs_run events_run e) with _ | j
      · rw [h2] at hidx
        cases hidx
      · have hstep : stepEvent stim TR TRs_run events_run (some init) e
            = some (init.set j (stim.getD (timeIdx events_run e) (0, 0)).1) := by
          unfold stepEvent pySet
          simp only [Option.some_bind]
          rw [if_neg hTR, h2]
          rfl
        rw [hstep]
        apply ih.mpr
        intro e' he'
        rw [List.length_set]
        exact H e' (List.mem_cons_of_mem _ he')

lemma stim_read_bound {nr er : ℕ} {e : ℕ × ℕ} (h : e ∈ eventSeq nr er) :
    timeIdx er e < nr * er := timeIdx_lt_of_mem h

lemma foldl_stepEvent_congr {stim1 stim2 : List (ℚ × ℚ)} {TR : ℚ}
    {TRs_run events_run : ℕ} :
    ∀ {L : List (ℕ × ℕ)},
      (∀ e ∈ L, stim1.getD (timeIdx events_run e) (0, 0)
        = stim2.getD (timeIdx events_run e) (0, 0)) →
      ∀ acc, L.foldl (stepEvent stim1 TR TRs_run events_run) acc
        = L.foldl (stepEvent stim2 TR TRs_run events_run) acc := by
  intro L
  induction L with
  | nil => intro _ _; rfl
  | cons e L ih =>
    intro H acc
    rw [List.foldl_cons, List.foldl_cons]
    have hstep : stepEvent stim1 TR TRs_run events_run acc e
        = stepEvent stim2 TR TRs_run events_run acc e := by
      unfold stepEvent trIdx
      rw [H e (List.mem_cons_self ..)]
    rw [hstep]
    exact ih (fun e' he' => H e' (List.mem_cons_of_mem _ he')) _

lemma pyInt_eq_floor {q : ℚ} (h : 0 ≤ q) : pyInt q = ⌊q⌋ := by
  unfold pyInt
  rw [if_pos h]

/-! ### Claim theorems -/

/-- C1, counterexample: with 3 runs, `TR = 1`, `TRs_per_run = 4` and one
onset-0 event per run (labels 1, 2, 3), `label2TR` puts run 1's label at
absolute index 3, not at the claimed index `r * TRs_per_run + floor(t/TR)
= 1 * 4 + 0 = 4`, which stays 0. -/
theorem label2TR_clean_index_formula_fails :
    label2TR [(1, 0), (2, 0), (3, 0)] 3 1 4
        = some [1, 0, 0, 2, 0, 0, 3, 0, 0, 0, 0, 0] ∧
      ([1, 0, 0, 2, 0, 0, 3, 0, 0, 0, 0, 0] : List ℚ).getD (1 * 4 + 0) 0 ≠ 2 := by
  constructor
  · norm_num [label2TR, eventSeq, stepEvent, pySet, pyIdx, pyInt, timeIdx, trIdx,
      List.range_succ, List.replicate, List.set]
  · norm_num [List.getD]

/-- C1 (amended): a successful `label2TR` call writes the label of an event
in run `r` at absolute index `floor(onset / TR) + r * (TRs_per_run - 1)` —
the legacy cumulative offset `r * (TRs_per_run - 1)`, not the spec's
`r * TRs_per_run` — whenever that event is the final writer to that
position (onset and `TR` nonnegative as in the source data). -/
theorem label2TR_event_target_index
    (stim : List (ℚ × ℚ)) (nr N : ℕ) (TR : ℚ) (out : List ℚ) (e : ℕ × ℕ)
    (h : label2TR stim nr TR N = some out)
    (he : e ∈ eventSeq nr (stim.length / nr))
    (hTR : 0 < TR) (hN : 1 ≤ N)
    (ht : 0 ≤ (stim.getD (timeIdx (stim.length / nr) e) (0, 0)).2)
    (hin : ⌊(stim.getD (timeIdx (stim.length / nr) e) (0, 0)).2 / TR⌋
        + (e.1 : ℤ) * ((N : ℤ) - 1) < (N : ℤ) * 3)
    (hlast : ∀ e' ∈ eventSeq nr (stim.length / nr),
      pyIdx (N * 3) (trIdx stim TR N (stim.length / nr) e')
          = pyIdx (N * 3) (trIdx stim TR N (stim.length / nr) e) →
      timeIdx (stim.length / nr) e' ≤ timeIdx (stim.length / nr) e) :
    out.getD (⌊(stim.getD (timeIdx (stim.length / nr) e) (0, 0)).2 / TR⌋
        + (e.1 : ℤ) * ((N : ℤ) - 1)).toNat 0
      = (stim.getD (timeIdx (stim.length / nr) e) (0, 0)).1 := by
  set er := stim.length / nr with her
  set t := (stim.getD (timeIdx er e) (0, 0)).2 with hts
  have hq : trIdx stim TR N er e = ⌊t / TR⌋ + (e.1 : ℤ) * ((N : ℤ) - 1) := by
    unfold trIdx
    rw [← hts, pyInt_eq_floor (div_nonneg ht hTR.le)]
  have hq0 : 0 ≤ ⌊t / TR⌋ + (e.1 : ℤ) * ((N : ℤ) - 1) := by
    have h1 : (0 : ℤ) ≤ ⌊t / TR⌋ := Int.floor_nonneg.mpr (div_nonneg ht hTR.le)
    have h2 : (0 : ℤ) ≤ (e.1 : ℤ) * ((N : ℤ) - 1) := by
      apply mul_nonneg (Int.ofNat_nonneg e.1)
      omega
    omega
  have hresolved : pyIdx (N * 3) (trIdx stim TR N er e)
      = some (⌊t / TR⌋ + (e.1 : ℤ) * ((N : ℤ) - 1)).toNat := by
    rw [hq]
    apply pyIdx_of_nonneg hq0
    exact_mod_cast hin
  rw [label2TR_getD h]
  apply foldl_overwrite_getLast
    (P := fun e' => pyIdx (N * 3) (trIdx stim TR N er e')
      = some (⌊t / TR⌋ + (e.1 : ℤ) * ((N : ℤ) - 1)).toNat)
  apply getLast?_eq_of_max (f := timeIdx er)
  · exact List.Pairwise.sublist (List.filter_sublist _) (eventSeq_pairwise nr er)
  · exact List.mem_filter.mpr ⟨he, by simpa using hresolved⟩
  · intro y hy
    rcases List.mem_filter.mp hy with ⟨hy1, hy2⟩
    apply hlast y hy1
    rw [hresolved]
    simpa using hy2

/-- C1 witness: in the 3-runs / `TR = 1` / `TRs_per_run = 4` setting, run 1's
onset-0 event (label 2) lands at `floor(0/1) + 1 * (4 - 1) = 3`. -/
theorem label2TR_event_target_index_witness :
    ([1, 0, 0, 2, 0, 0, 3, 0, 0, 0, 0, 0] : List ℚ).getD
        ((⌊(([(1, 0), (2, 0), (3, 0)] : List (ℚ × ℚ)).getD
            (timeIdx (([(1, 0), (2, 0), (3, 0)] : List (ℚ × ℚ)).length / 3) (1, 0)) (0, 0)).2 / 1⌋
          + ((1 : ℕ) : ℤ) * ((4 : ℤ) - 1)).toNat) 0
      = (([(1, 0), (2, 0), (3, 0)] : List (ℚ × ℚ)).getD
          (timeIdx (([(1, 0), (2, 0), (3, 0)] : List (ℚ × ℚ)).length / 3) (1, 0)) (0, 0)).1 :=
  label2TR_event_target_index [(1, 0), (2, 0), (3, 0)] 3 4 1 _ (1, 0)
    (by norm_num [label2TR, eventSeq, stepEvent, pySet, pyIdx, pyInt, timeIdx, trIdx,
      List.range_succ, List.replicate, List.set])
    (by norm_num [eventSeq, List.range_succ])
    (by norm_num) (by norm_num)
    (by norm_num [timeIdx])
    (by norm_num [timeIdx])
    (by norm_num [eventSeq, List.range_succ, pyIdx, pyInt, timeIdx, trIdx] <;> omega)

/-- C2: `label2TR` presets its output with `np.zeros((TRs_run * 3, 1))`,
hard-coding the run count `3`; with `num_runs = 1`, `TRs_per_run = 2` and no
events it returns the all-zero vector of length `6`, not of the claimed
length `num_runs * TRs_per_run = 2`. -/
theorem label2TR_output_length_hardcodes_three_runs :
    label2TR [] 1 1 2 = some (List.replicate 6 0) ∧
      (List.replicate (6 : ℕ) (0 : ℚ)).length ≠ 1 * 2 := by
  constructor
  · norm_num [label2TR, eventSeq, stepEvent, List.range_succ]
  · norm_num

/-- C4, counterexample: an event whose computed in-run index
`floor(3 / 1) = 3` exceeds `TRs_per_run - 1 = 1` raises nothing — the call
succeeds and the label is silently written at flat position 3 of the
6-entry vector (outside run 0's slice). -/
theorem label2TR_out_of_run_index_not_an_error :
    label2TR [(7, 3)] 1 1 2 = some [0, 0, 0, 7, 0, 0] ∧ ¬ ((3 : ℕ) < 2) := by
  constructor
  · norm_num [label2TR, eventSeq, stepEvent, pySet, pyIdx, pyInt, timeIdx, trIdx,
      List.range_succ, List.replicate, List.set]
  · omega

/-- C4 (amended): `label2TR` validates nothing — it fails exactly when
`num_runs = 0` (Python `ZeroDivisionError`), or some traversed event is
processed with `TR = 0`, or some traversed event's computed flat index falls
outside the Python-indexable range `[-3 * TRs_per_run, 3 * TRs_per_run)` of
the output array (an uncaught `IndexError`, not a `ConfigurationError`);
per-run range violations inside that window are written silently. -/
theorem label2TR_failure_characterization
    (stim : List (ℚ × ℚ)) (nr : ℕ) (TR : ℚ) (N : ℕ) :
    (label2TR stim nr TR N).isSome ↔
      nr ≠ 0 ∧ ∀ e ∈ eventSeq nr (stim.length / nr),
        TR ≠ 0 ∧ (pyIdx (N * 3) (trIdx stim TR N (stim.length / nr) e)).isSome := by
  unfold label2TR
  split
  · next h => simp [h]
  · next h =>
    rw [foldl_stepEvent_isSome]
    simp [h]

/-- C7: when several events map to the same resolved output position, the
one latest in the concatenated input order supplies the final label
(last-write-wins), for any colliding pair in particular. -/
theorem label2TR_collision_last_write
    (stim : List (ℚ × ℚ)) (nr N : ℕ) (TR : ℚ) (out : List ℚ)
    (e1 e2 : ℕ × ℕ) (p : ℕ)
    (h : label2TR stim nr TR N = some out)
    (h1 : e1 ∈ eventSeq nr (stim.length / nr))
    (h2 : e2 ∈ eventSeq nr (stim.length / nr))
    (horder : timeIdx (stim.length / nr) e1 < timeIdx (stim.length / nr) e2)
    (hp1 : pyIdx (N * 3) (trIdx stim TR N (stim.length / nr) e1) = some p)
    (hp2 : pyIdx (N * 3) (trIdx stim TR N (stim.length / nr) e2) = some p)
    (hlast : ∀ e ∈ eventSeq nr (stim.length / nr),
      pyIdx (N * 3) (trIdx stim TR N (stim.length / nr) e) = some p →
      timeIdx (stim.length / nr) e ≤ timeIdx (stim.length / nr) e2) :
    out.getD p 0 = (stim.getD (timeIdx (stim.length / nr) e2) (0, 0)).1 := by
  rw [label2TR_getD h]
  apply foldl_overwrite_getLast
    (P := fun e => pyIdx (N * 3) (trIdx stim TR N (stim.length / nr) e) = some p)
  apply getLast?_eq_of_max (f := timeIdx (stim.length / nr))
  · exact List.Pairwise.sublist (List.filter_sublist _)
      (eventSeq_pairwise nr (stim.length / nr))
  · exact List.mem_filter.mpr ⟨h2, by simpa using hp2⟩
  · intro y hy
    rcases List.mem_filter.mp hy with ⟨hy1, hy2⟩
    exact hlast y hy1 (by simpa using hy2)

/-- C7 witness: two run-0 events with onset 0 (labels 5 then 7) collide at
position 0; the later one (label 7) is what the output holds there. -/
theorem label2TR_collision_last_write_witness :
    ([7, 0, 0, 0, 0, 0, 0, 0, 0, 0, 0, 0] : List ℚ).getD 0 0
      = (([(5, 0), (7, 0)] : List (ℚ × ℚ)).getD
          (timeIdx (([(5, 0), (7, 0)] : List (ℚ × ℚ)).length / 1) (0, 1)) (0, 0)).1 :=
  label2TR_collision_last_write [(5, 0), (7, 0)] 1 4 1 _ (0, 0) (0, 1) 0
    (by norm_num [label2TR, eventSeq, stepEvent, pySet, pyIdx, pyInt, timeIdx, trIdx,
      List.range_succ, List.replicate, List.set])
    (by norm_num [eventSeq, List.range_succ])
    (by norm_num [eventSeq, List.range_succ])
    (by norm_num [timeIdx])
    (by norm_num [pyIdx, pyInt, timeIdx, trIdx])
    (by norm_num [pyIdx, pyInt, timeIdx, trIdx])
    (by norm_num [eventSeq, List.range_succ, pyIdx, pyInt, timeIdx, trIdx])

/-- C9: `label2TR` reads only the first
`num_runs * floor(event_count / num_runs)` columns of the timing array; two
inputs of equal event count agreeing on that prefix produce identical
outputs, whatever the trailing events hold. -/
theorem label2TR_ignores_trailing_events
    (stim1 stim2 : List (ℚ × ℚ)) (nr : ℕ) (TR : ℚ) (N : ℕ)
    (hlen : stim1.length = stim2.length)
    (hpre : ∀ k, k < nr * (stim1.length / nr) →
      stim1.getD k (0, 0) = stim2.getD k (0, 0)) :
    label2TR stim1 nr TR N = label2TR stim2 nr TR N := by
  unfold label2TR
  rw [← hlen]
  split
  · rfl
  · exact foldl_stepEvent_congr
      (fun e he => hpre _ (timeIdx_lt_of_mem he)) _

/-- C9 witness: changing only the third event of a 3-event, 2-run input
(`events_run = 1`, so the third column is never read) leaves the output
unchanged. -/
theorem label2TR_ignores_trailing_events_witness :
    label2TR [(1, 0), (2, 0), (3, 0)] 2 1 2
      = label2TR [(1, 0), (2, 0), (9, 9)] 2 1 2 :=
  label2TR_ignores_trailing_events [(1, 0), (2, 0), (3, 0)] [(1, 0), (2, 0), (9, 9)] 2 1 2
    (by norm_num)
    (by
      intro k hk
      norm_num at hk
      interval_cases k <;> norm_num [List.getD])

/-- C10: `label2TR` does no bounds checking — an event with onset `-3/2`
and `TR = 3/2` in run 0 gets computed index
`int(-3/2 / (3/2)) + 0 * (TRs_run - 1) = -1`, which Python resolves from the
end of the 12-entry vector: the label is silently stored at position 11 and
no error is raised. -/
theorem label2TR_negative_index_writes_from_end :
    trIdx [(7, -3/2)] (3/2) 4 1 (0, 0) = -1 ∧
      pyIdx 12 (-1) = some 11 ∧
      label2TR [(7, -3/2)] 1 (3/2) 4
        = some [0, 0, 0, 0, 0, 0, 0, 0, 0, 0, 0, 7] := by
  refine ⟨?_, ?_, ?_⟩
  · norm_num [trIdx, pyInt, timeIdx]
  · norm_num [pyIdx] <;> omega
  · norm_num [label2TR, eventSeq, stepEvent, pySet, pyIdx, pyInt, timeIdx, trIdx,
      List.range_succ, List.replicate, List.set]

/-- C8: the time-shift operation keeps the length, fills the first `shift`
entries with the unlabeled sentinel `0`, moves entry `i - shift` of the
input to entry `i` of the output for `shift ≤ i < length` (entries shifted
past the end are dropped, no wraparound), and shifting by `0` is the
identity. -/
theorem shift_timing_spec (v : List ℚ) (k : ℕ) :
    (shift_timing v k).length = v.length ∧
      (∀ i, i < k → (shift_timing v k).getD i 0 = 0) ∧
      (∀ i, k ≤ i → i < v.length → (shift_timing v k).getD i 0 = v.getD (i - k) 0) ∧
      shift_timing v 0 = v := by
  refine ⟨?_, ?_, ?_, ?_⟩
  · unfold shift_timing
    rw [List.length_take, List.length_append, List.length_replicate]
    omega
  · intro i hik
    unfold shift_timing
    rw [List.getD_eq_getElem?_getD, List.getElem?_take]
    by_cases hi : i < v.length
    · rw [if_pos hi,
        List.getElem?_append_left (by rw [List.length_replicate]; omega),
        List.getElem?_replicate, if_pos hik]
      rfl
    · rw [if_neg hi]
      rfl
  · intro i hki hi
    unfold shift_timing
    rw [List.getD_eq_getElem?_getD, List.getElem?_take, if_pos hi,
      List.getElem?_append_right (by rw [List.length_replicate]; omega),
      List.length_replicate, ← List.getD_eq_getElem?_getD]
  · unfold shift_timing
    rw [List.replicate_zero, List.nil_append, List.take_length]

/-- C8 witness: shifting `[1, 2, 3, 4, 5, 6]` by 2 puts `0` at position 1
and the original entry 3 (position 2) at position 4, matching the spec's
scenario `[0, 0, 1, 2, 3, 4]`. -/
theorem shift_timing_spec_witness :
    (shift_timing [1, 2, 3, 4, 5, 6] 2).getD 1 0 = 0 ∧
      (shift_timing [1, 2, 3, 4, 5, 6] 2).getD 4 0 = 3 :=
  ⟨(shift_timing_spec [1, 2, 3, 4, 5, 6] 2).2.1 1 (by norm_num),
    by
      have h := (shift_timing_spec [1, 2, 3, 4, 5, 6] 2).2.2.1 4
        (by norm_num) (by norm_num)
      rw [h]
      norm_num [List.getD]⟩

/-! ### Fold structure of `decode` -/

lemma mem_testIdx {ids : List ℕ} {f j : ℕ} :
    j ∈ testIdx ids f ↔ j < ids.length ∧ ids.getD j 0 = f := by
  unfold testIdx
  rw [List.mem_filter, List.mem_range]
  simp

lemma mem_trainIdx {ids : List ℕ} {f j : ℕ} :
    j ∈ trainIdx ids f ↔ j < ids.length ∧ ids.getD j 0 ≠ f := by
  unfold trainIdx
  rw [List.mem_filter, List.mem_range]
  simp

lemma le_foldsMax {ids : List ℕ} {a : ℕ} (h : a ∈ ids) : a ≤ foldsMax ids := by
  unfold foldsMax
  induction ids with
  | nil => cases h
  | cons x t ih =>
    rcases List.mem_cons.mp h with rfl | h'
    · exact Nat.le_max_left ..
    · exact le_trans (ih h') (Nat.le_max_right ..)

lemma mem_uniqueFolds {ids : List ℕ} {f : ℕ} :
    f ∈ uniqueFolds ids ↔ f ∈ ids := by
  unfold uniqueFolds
  rw [List.mem_filter, List.mem_range]
  constructor
  · rintro ⟨_, h⟩
    simpa using h
  · intro h
    exact ⟨Nat.lt_succ_of_le (le_foldsMax h), by simpa using h⟩

/-- C6: the per-fold row splits used by `decode` (via
`PredefinedSplit(cv_ids)`) partition the sample rows: no row is in both the
training and the test split of the same fold, every row is in the test
split of some declared fold, and of exactly one fold. -/
theorem decode_folds_partition (ids : List ℕ) :
    (∀ f j, ¬(j ∈ trainIdx ids f ∧ j ∈ testIdx ids f)) ∧
      (∀ j, j < ids.length ↔ ∃ f ∈ uniqueFolds ids, j ∈ testIdx ids f) ∧
      (∀ j f g, j ∈ testIdx ids f → j ∈ testIdx ids g → f = g) := by
  refine ⟨?_, ?_, ?_⟩
  · rintro f j ⟨h1, h2⟩
    exact (mem_trainIdx.mp h1).2 (mem_testIdx.mp h2).2
  · intro j
    constructor
    · intro hj
      refine ⟨ids.getD j 0, mem_uniqueFolds.mpr ?_, mem_testIdx.mpr ⟨hj, rfl⟩⟩
      rw [List.getD_eq_getElem _ _ hj]
      exact List.getElem_mem ..
    · rintro ⟨f, _, hf⟩
      exact (mem_testIdx.mp hf).1
  · intro j f g hf hg
    have h1 := (mem_testIdx.mp hf).2
    have h2 := (mem_testIdx.mp hg).2
    omega

/-- C6 witness: with fold ids `[0, 1, 0]`, row 2 is not simultaneously in
train and test of fold 0, and belongs to the test split of some declared
fold. -/
theorem decode_folds_partition_witness :
    ¬((2 : ℕ) ∈ trainIdx [0, 1, 0] 0 ∧ (2 : ℕ) ∈ testIdx [0, 1, 0] 0) ∧
      ∃ f ∈ uniqueFolds [0, 1, 0], (2 : ℕ) ∈ testIdx [0, 1, 0] f :=
  ⟨(decode_folds_partition [0, 1, 0]).1 0 2,
    ((decode_folds_partition [0, 1, 0]).2.1 2).mp (by norm_num)⟩

/-- C3, counterexample: `decode` appends the one shared `model` object every
iteration, so with two folds the 0-th returned "model" is not a classifier
fitted on fold 0's training rows (`X_train = [[2]]`, `y_train = [1]`): it
holds the last fold's fit (`[[1]]`, `[0]`). -/
theorem decode_model_list_not_fold_fresh :
    (decode [[1], [2]] [0, 1] [0, 1] recModel ([], [])).1.getD 0 ([], [])
        = ([[1]], [0]) ∧
      (decode [[1], [2]] [0, 1] [0, 1] recModel ([], [])).1.getD 0 ([], [])
        ≠ (rowsAt [[1], [2]] (trainIdx [0, 1] 0),
           valsAt [0, 1] (trainIdx [0, 1] 0)) := by
  constructor <;> decide

lemma decodeLoop_scores {σ : Type} (X : List (List ℚ)) (y : List ℚ)
    (ids : List ℕ) (M : Classifier σ) (s0 : σ)
    (hreset : ∀ s s' A b, M.fit s A b = M.fit s' A b) :
    ∀ (L : List ℕ) (s : σ) (acc : List ℚ),
      (L.foldl (decodeStep X y ids M) (s, acc)).2
        = acc ++ L.map (fun f =>
            M.score
              (M.fit s0 (rowsAt X (trainIdx ids f)) (valsAt y (trainIdx ids f)))
              (rowsAt X (testIdx ids f)) (valsAt y (testIdx ids f))) := by
  intro L
  induction L with
  | nil =>
    intro s acc
    simp
  | cons f L ih =>
    intro s acc
    rw [List.foldl_cons]
    have hstep : decodeStep X y ids M (s, acc) f
        = (M.fit s (rowsAt X (trainIdx ids f)) (valsAt y (trainIdx ids f)),
           acc ++ [M.score
             (M.fit s (rowsAt X (trainIdx ids f)) (valsAt y (trainIdx ids f)))
             (rowsAt X (testIdx ids f)) (valsAt y (testIdx ids f))]) := rfl
    rw [hstep, ih, hreset s s0, List.map_cons, List.append_assoc,
      List.singleton_append]

/-- C3 (amended): the score list of `decode` is fold-fresh — provided the
classifier's `fit` discards previous state (as sklearn's non-warm-start
`fit` does), score `i` is obtained by fitting on fold `i`'s training rows
alone and scoring fold `i`'s test rows, for the distinct folds in ascending
order — and both returned sequences have length equal to the number of
distinct fold values; but the returned classifier sequence is degenerate:
all its elements are one and the same shared instance (in its final,
last-fold state), not per-fold instances. -/
theorem decode_scores_fold_fresh {σ : Type} (X : List (List ℚ)) (y : List ℚ)
    (cv_ids : List ℕ) (M : Classifier σ) (s0 : σ)
    (hreset : ∀ s s' A b, M.fit s A b = M.fit s' A b) :
    (decode X y cv_ids M s0).2
        = (uniqueFolds cv_ids).map (fun f =>
            M.score
              (M.fit s0 (rowsAt X (trainIdx cv_ids f)) (valsAt y (trainIdx cv_ids f)))
              (rowsAt X (testIdx cv_ids f)) (valsAt y (testIdx cv_ids f))) ∧
      (decode X y cv_ids M s0).1.length = (uniqueFolds cv_ids).length ∧
      (decode X y cv_ids M s0).2.length = (uniqueFolds cv_ids).length ∧
      ∀ m1 ∈ (decode X y cv_ids M s0).1, ∀ m2 ∈ (decode X y cv_ids M s0).1,
        m1 = m2 := by
  have hs : (decode X y cv_ids M s0).2
      = (uniqueFolds cv_ids).map (fun f =>
          M.score
            (M.fit s0 (rowsAt X (trainIdx cv_ids f)) (valsAt y (trainIdx cv_ids f)))
            (rowsAt X (testIdx cv_ids f)) (valsAt y (testIdx cv_ids f))) := by
    unfold decode
    simp only
    rw [decodeLoop_scores X y cv_ids M s0 hreset, List.nil_append]
  refine ⟨hs, ?_, ?_, ?_⟩
  · unfold decode
    simp only
    rw [List.length_replicate]
  · rw [hs, List.length_map]
  · intro m1 hm1 m2 hm2
    unfold decode at hm1 hm2
    simp only at hm1 hm2
    rw [List.eq_of_mem_replicate hm1, List.eq_of_mem_replicate hm2]

/-- C3 witness: concrete two-fold run of the amended statement with the
state-recording classifier (whose `fit` ignores its previous state). -/
theorem decode_scores_fold_fresh_witness :
    (decode [[1], [2]] [0, 1] [0, 1] recModel ([], [])).2
      = (uniqueFolds [0, 1]).map (fun f =>
          recModel.score
            (recModel.fit ([], []) (rowsAt [[1], [2]] (trainIdx [0, 1] f))
              (valsAt [0, 1] (trainIdx [0, 1] f)))
            (rowsAt [[1], [2]] (testIdx [0, 1] f))
            (valsAt [0, 1] (testIdx [0, 1] f))) :=
  (decode_scores_fold_fresh [[1], [2]] [0, 1] [0, 1] recModel ([], [])
    (fun _ _ _ _ => rfl)).1

/-! ### Run-wise normalization -/

lemma getD_replicate_of_lt {p n : ℕ} {a d : α} (h : p < n) :
    (List.replicate n a).getD p d = a := by
  rw [List.getD_eq_getElem?_getD, List.getElem?_replicate, if_pos h]
  rfl

lemma fitTransform_getD {B : List (List ℚ)} {j : ℕ} (hj : j < B.length) :
    (fitTransform B).getD j [] = zrow B (B.getD j []) := by
  unfold fitTransform
  rw [List.getD_eq_getElem?_getD, List.getElem?_map, List.getElem?_eq_getElem hj]
  rw [List.getD_eq_getElem _ _ hj]
  rfl

lemma selectRows_block (B : List (List ℚ)) (i r : ℕ) :
    ((B.zip (List.replicate B.length i)).filter fun p => p.2 = r).map Prod.fst
      = if i = r then B else [] := by
  induction B with
  | nil => simp
  | cons x B ih =>
    rw [List.length_cons, List.replicate_succ, List.zip_cons_cons, List.filter_cons]
    by_cases hir : i = r
    · subst hir
      simp [ih]
    · simp [hir, ih]

lemma selectRows_grouped (B0 B1 B2 : List (List ℚ)) (r : ℕ) :
    selectRows (B0 ++ (B1 ++ B2)) (groupedIds B0 B1 B2) r
      = (if 0 = r then B0 else [])
        ++ ((if 1 = r then B1 else []) ++ (if 2 = r then B2 else [])) := by
  unfold selectRows groupedIds
  rw [List.zip_append (by rw [List.length_replicate]),
    List.zip_append (by rw [List.length_replicate]),
    List.filter_append, List.filter_append,
    List.map_append, List.map_append,
    selectRows_block, selectRows_block, selectRows_block]

set_option maxHeartbeats 1600000 in
/-- C5, counterexample: `normalize` reassembles the rows grouped by run
identifier 0, 1, 2 (the run count is the global `vdc_n_runs`), not in
original row order.  With run ids `[1, 0, 0, 1, 2, 2]`, output row 1 is the
z-score of input row 2 (the value `1`), not the z-score of input row 1 with
its own run's statistics (the value `-1`); and a seventh row with run id 3
is dropped outright: 7 input rows yield 6 output rows. -/
theorem normalize_row_order_not_preserved :
    normalize [[0], [4], [6], [2], [0], [2]] [1, 0, 0, 1, 2, 2]
        = some [[-1], [1], [-1], [1], [-1], [1]] ∧
      ([[-1], [1], [-1], [1], [-1], [1]] : List (List ℚ)).getD 1 []
        ≠ zrow
            (selectRows [[0], [4], [6], [2], [0], [2]] [1, 0, 0, 1, 2, 2]
              (([1, 0, 0, 1, 2, 2] : List ℕ).getD 1 0))
            (([[0], [4], [6], [2], [0], [2]] : List (List ℚ)).getD 1 []) ∧
      (normalize [[0], [4], [6], [2], [0], [2], [9]] [1, 0, 0, 1, 2, 2, 3]).map
          List.length
        = some 6 := by
  refine ⟨?_, ?_, ?_⟩
  · norm_num [normalize, selectRows, fitTransform, zrow, colScale, colVar, colMean,
      ratSqrt, natSqrt, vdc_n_runs, List.range_succ, Nat.findGreatest]
  · norm_num [selectRows, zrow, colScale, colVar, colMean, ratSqrt, natSqrt,
      List.range_succ, Nat.findGreatest, List.getD]
  · norm_num [normalize, selectRows, fitTransform, zrow, colScale, colVar, colMean,
      ratSqrt, natSqrt, vdc_n_runs, List.range_succ, Nat.findGreatest]

/-- C5 (amended): when the rows already arrive grouped by ascending run
identifier with each of the runs 0, 1, 2 nonempty — as the notebook's
run-major data does — `normalize` returns a matrix of the same row count in
which row `j` is input row `j` z-scored with the per-feature mean and
standard deviation of the rows sharing its run identifier. -/
theorem normalize_grouped_input (B0 B1 B2 : List (List ℚ))
    (h0 : B0 ≠ []) (h1 : B1 ≠ []) (h2 : B2 ≠ []) :
    ∃ Y, normalize (B0 ++ (B1 ++ B2)) (groupedIds B0 B1 B2) = some Y ∧
      Y.length = (B0 ++ (B1 ++ B2)).length ∧
      ∀ j, j < (B0 ++ (B1 ++ B2)).length →
        Y.getD j [] = zrow
          (selectRows (B0 ++ (B1 ++ B2)) (groupedIds B0 B1 B2)
            ((groupedIds B0 B1 B2).getD j 0))
          ((B0 ++ (B1 ++ B2)).getD j []) := by
  have hsel0 : selectRows (B0 ++ (B1 ++ B2)) (groupedIds B0 B1 B2) 0 = B0 := by
    rw [selectRows_grouped]
    norm_num
  have hsel1 : selectRows (B0 ++ (B1 ++ B2)) (groupedIds B0 B1 B2) 1 = B1 := by
    rw [selectRows_grouped]
    norm_num
  have hsel2 : selectRows (B0 ++ (B1 ++ B2)) (groupedIds B0 B1 B2) 2 = B2 := by
    rw [selectRows_grouped]
    norm_num
  refine ⟨fitTransform B0 ++ (fitTransform B1 ++ fitTransform B2), ?_, ?_, ?_⟩
  · unfold normalize
    rw [show List.range vdc_n_runs = [0, 1, 2] from rfl]
    simp only [List.foldl_cons, List.foldl_nil, Option.some_bind]
    rw [hsel0, if_neg h0, Option.some_bind, hsel1, if_neg h1, Option.some_bind,
      hsel2, if_neg h2, List.nil_append, List.append_assoc]
  · unfold fitTransform
    simp [List.length_append]
  · intro j hj
    rw [List.length_append, List.length_append] at hj
    have hft0 : (fitTransform B0).length = B0.length := by
      unfold fitTransform
      rw [List.length_map]
    have hft1 : (fitTransform B1).length = B1.length := by
      unfold fitTransform
      rw [List.length_map]
    by_cases hj0 : j < B0.length
    · have hids : (groupedIds B0 B1 B2).getD j 0 = 0 := by
        unfold groupedIds
        rw [List.getD_append _ _ _ _ (by rw [List.length_replicate]; omega),
          getD_replicate_of_lt hj0]
      have hX : (B0 ++ (B1 ++ B2)).getD j [] = B0.getD j [] :=
        List.getD_append _ _ _ _ hj0
      have hY : (fitTransform B0 ++ (fitTransform B1 ++ fitTransform B2)).getD j []
          = (fitTransform B0).getD j [] :=
        List.getD_append _ _ _ _ (by omega)
      rw [hids, hsel0, hX, hY, fitTransform_getD hj0]
    · by_cases hj1 : j < B0.length + B1.length
      · have hids : (groupedIds B0 B1 B2).getD j 0 = 1 := by
          unfold groupedIds
          rw [List.getD_append_right _ _ _ _ (by rw [List.length_replicate]; omega),
            List.length_replicate,
            List.getD_append _ _ _ _ (by rw [List.length_replicate]; omega),
            getD_replicate_of_lt (by omega)]
        have hX : (B0 ++ (B1 ++ B2)).getD j [] = B1.getD (j - B0.length) [] := by
          rw [List.getD_append_right _ _ _ _ (by omega),
            List.getD_append _ _ _ _ (by omega)]
        have hY : (fitTransform B0 ++ (fitTransform B1 ++ fitTransform B2)).getD j []
            = (fitTransform B1).getD (j - B0.length) [] := by
          rw [List.getD_append_right _ _ _ _ (by omega), hft0,
            List.getD_append _ _ _ _ (by omega)]
        rw [hids, hsel1, hX, hY, fitTransform_getD (by omega)]
      · have hids : (groupedIds B0 B1 B2).getD j 0 = 2 := by
          unfold groupedIds
          rw [List.getD_append_right _ _ _ _ (by rw [List.length_replicate]; omega),
            List.length_replicate,
            List.getD_append_right _ _ _ _ (by rw [List.length_replicate]; omega),
            List.length_replicate,
            getD_replicate_of_lt (by omega)]
        have hX : (B0 ++ (B1 ++ B2)).getD j []
            = B2.getD (j - B0.length - B1.length) [] := by
          rw [List.getD_append_right _ _ _ _ (by omega),
            List.getD_append_right _ _ _ _ (by omega)]
        have hY : (fitTransform B0 ++ (fitTransform B1 ++ fitTransform B2)).getD j []
            = (fitTransform B2).getD (j - B0.length - B1.length) [] := by
          rw [List.getD_append_right _ _ _ _ (by omega), hft0,
            List.getD_append_right _ _ _ _ (by omega), hft1]
        rw [hids, hsel2, hX, hY, fitTransform_getD (by omega)]

/-- C5 witness: concrete grouped single-row runs instantiating the amended
statement. -/
theorem normalize_grouped_input_witness :
    ∃ Y, normalize ([[4]] ++ ([[5]] ++ [[6]])) (groupedIds [[4]] [[5]] [[6]])
        = some Y ∧
      Y.length = ([[4]] ++ ([[5]] ++ [[6]]) : List (List ℚ)).length ∧
      ∀ j, j < ([[4]] ++ ([[5]] ++ [[6]]) : List (List ℚ)).length →
        Y.getD j [] = zrow
          (selectRows ([[4]] ++ ([[5]] ++ [[6]])) (groupedIds [[4]] [[5]] [[6]])
            ((groupedIds [[4]] [[5]] [[6]]).getD j 0))
          (([[4]] ++ ([[5]] ++ [[6]]) : List (List ℚ)).getD j []) :=
  normalize_grouped_input [[4]] [[5]] [[6]] (by simp) (by simp) (by simp)

end FMRI
